import Mathlib

/-!
Shallow embedding of the rss-mcp feed store (src/db.ts), the refresh
orchestrator (src/index.ts, refresh_feeds tool) and the feed normalizer
(src/feeds.ts), together with proofs of the specified properties.

Ids and millisecond timestamps are modelled as `Int` (JS numbers), SQL
TEXT columns as `String`, nullable columns as `Option`.  The SQLite
tables are modelled as lists of records; the fts5 external-content
index `posts_fts` is a list of index entries kept in sync by the three
triggers `posts_ai` / `posts_ad` / `posts_au`, which are inlined into
the operations that fire them.
-/

namespace RssMcp

/-- A row of the `feeds` table (interface `Feed` in db.ts). -/
structure Feed where
  id : Int
  url : String
  title : Option String
  site_url : Option String
  last_fetched : Option String
  etag : Option String
  last_modified : Option String
  created_at : String
deriving DecidableEq, Repr

/-- A row of the `posts` table (interface `Post` in db.ts).  The
`feed_title` / `feed_url` fields are the joined columns present only on
query results. -/
structure Post where
  id : Int
  feed_id : Int
  guid : String
  title : Option String
  url : Option String
  summary : Option String
  content : Option String
  author : Option String
  published_at : Option String
  fetched_at : String
  is_read : Int
  read_at : Option String
  starred : Int
  feed_title : Option String := none
  feed_url : Option String := none
deriving DecidableEq, Repr

/-- A row of the fts5 table `posts_fts` (rowid = post id, plus the three
indexed text columns). -/
structure FtsEntry where
  rowid : Int
  title : Option String
  summary : Option String
  content : Option String
deriving DecidableEq, Repr

/-- Interface `PostEntry` in db.ts: one normalized feed entry handed to
`upsertPosts`. -/
structure PostEntry where
  guid : String
  title : Option String := none
  url : Option String := none
  summary : Option String := none
  author : Option String := none
  published_at : Option String := none
deriving DecidableEq, Repr

/-- The persistent store: the two tables, the fts index, and the next
AUTOINCREMENT rowid for `posts`. -/
structure Db where
  feeds : List Feed
  posts : List Post
  posts_fts : List FtsEntry
  next_post_id : Int
deriving DecidableEq, Repr

/-- The fts row the triggers maintain for a given post row. -/
def postFts (p : Post) : FtsEntry :=
  { rowid := p.id, title := p.title, summary := p.summary, content := p.content }

/-! ## Feed operations (db.ts) -/

/-- `getFeed`: `SELECT * FROM feeds WHERE id = ?` (first row or null). -/
def getFeed (feedId : Int) (s : Db) : Option Feed :=
  s.feeds.find? (fun f => f.id == feedId)

/-- Insertion into a list kept sorted by `created_at` descending. -/
def insertByCreatedDesc (f : Feed) : List Feed → List Feed
  | [] => [f]
  | g :: gs =>
    if decide (g.created_at ≤ f.created_at) then f :: g :: gs
    else g :: insertByCreatedDesc f gs

/-- `listFeeds`: `SELECT * FROM feeds ORDER BY created_at DESC`
(the sort modelled by insertion sort). -/
def listFeeds (s : Db) : List Feed :=
  s.feeds.foldr insertByCreatedDesc []

/-- `removeFeed`: `DELETE FROM feeds WHERE id = ?`.  `ON DELETE CASCADE`
deletes every post of the feed, and each cascaded deletion fires the
`posts_ad` trigger, which removes that post id from `posts_fts`.
Returns the new store and `result.changes > 0`. -/
def removeFeed (feedId : Int) (s : Db) : Db × Bool :=
  let deletedIds := (s.posts.filter (fun p => p.feed_id == feedId)).map (·.id)
  ({ s with
      feeds := s.feeds.filter (fun f => !(f.id == feedId))
      posts := s.posts.filter (fun p => !(p.feed_id == feedId))
      posts_fts := s.posts_fts.filter (fun e => !(deletedIds.contains e.rowid)) },
   s.feeds.any (fun f => f.id == feedId))

/-- `updateFeedMeta`: `UPDATE feeds SET title = COALESCE(?, title),
site_url = COALESCE(?, site_url), last_fetched = datetime(now), etag = ?,
last_modified = ? WHERE id = ?`.  `now` is the textual current time. -/
def updateFeedMeta (feedId : Int) (title siteUrl etag lastModified : Option String)
    (now : String) (s : Db) : Db :=
  { s with feeds := s.feeds.map (fun f =>
      if f.id == feedId then
        { f with
            title := match title with | some t => some t | none => f.title
            site_url := match siteUrl with | some u => some u | none => f.site_url
            last_fetched := some now
            etag := etag
            last_modified := lastModified }
      else f) }

/-! ## upsertPosts (db.ts) -/

/-- Does a row with this `(feed_id, guid)` key exist?  This is the UNIQUE
constraint that makes `INSERT OR IGNORE` skip a row. -/
def hasPost (s : Db) (feedId : Int) (guid : String) : Bool :=
  s.posts.any (fun p => p.feed_id == feedId && p.guid == guid)

/-- One successful `INSERT INTO posts (feed_id, guid, title, url, summary,
author, published_at) VALUES (...)`: the row gets the next rowid, the
DEFAULT columns (`content` NULL, `fetched_at` now, `is_read` 0, `read_at`
NULL, `starred` 0), and the `posts_ai` trigger adds the matching
`posts_fts` row. -/
def insertPostEntry (feedId : Int) (now : String) (e : PostEntry) (s : Db) : Db :=
  let p : Post :=
    { id := s.next_post_id, feed_id := feedId, guid := e.guid,
      title := e.title, url := e.url, summary := e.summary,
      content := none, author := e.author, published_at := e.published_at,
      fetched_at := now, is_read := 0, read_at := none, starred := 0 }
  { s with
      posts := s.posts ++ [p]
      posts_fts := s.posts_fts ++ [postFts p]
      next_post_id := s.next_post_id + 1 }

/-- The loop body of `upsertPosts`: for each entry run the
`INSERT OR IGNORE` statement, counting the inserts whose
`result.changes > 0`. -/
def upsertGo (feedId : Int) (now : String) :
    List PostEntry → Db → Nat → Db × Nat
  | [], s, c => (s, c)
  | e :: es, s, c =>
    if hasPost s feedId e.guid then upsertGo feedId now es s c
    else upsertGo feedId now es (insertPostEntry feedId now e s) (c + 1)

/-- `upsertPosts(feedId, entries)`: the whole batch runs in one
transaction.  With `foreign_keys = ON`, inserting a row whose `feed_id`
references no feed raises (OR IGNORE does not cover foreign-key
violations) and the transaction rolls back, modelled as `none`; an empty
batch performs no insert and cannot raise. -/
def upsertPosts (feedId : Int) (entries : List PostEntry) (now : String)
    (s : Db) : Option (Db × Nat) :=
  if entries.isEmpty || s.feeds.any (fun f => f.id == feedId) then
    some (upsertGo feedId now entries s 0)
  else
    none

/-- No two rows of the posts table share the `(feed_id, guid)` UNIQUE key. -/
def keyUnique (l : List Post) : Prop :=
  l.Pairwise (fun p q => ¬(p.feed_id = q.feed_id ∧ p.guid = q.guid))

/-- Number of rows with a given `(feed_id, guid)` key. -/
def countKey (l : List Post) (feedId : Int) (guid : String) : Nat :=
  (l.filter (fun p => p.feed_id == feedId && p.guid == guid)).length

/-- A concrete one-feed store used by witnesses. -/
def upsertC1s0 : Db :=
  { feeds := [{ id := 1, url := "https://x.com/feed", title := none,
                site_url := none, last_fetched := none, etag := none,
                last_modified := none, created_at := "t0" }],
    posts := [], posts_fts := [], next_post_id := 1 }

/-- The store after upserting a batch of two entries sharing guid "abc"
into `upsertC1s0`. -/
def upsertC1s2 : Db :=
  ((upsertPosts 1 [{ guid := "abc" }, { guid := "abc" }] "t1"
      upsertC1s0).getD (upsertC1s0, 0)).1

/-! ## updatePostContent, getPosts, getPostContent (db.ts) -/

/-- `updatePostContent`: `UPDATE posts SET content = ? WHERE id = ?`.
For every updated row the `posts_au` trigger removes its old `posts_fts`
row (by rowid) and inserts the new one.  If no row matches, no trigger
fires. -/
def updatePostContent (postId : Int) (content : String) (s : Db) : Db :=
  match s.posts.find? (fun p => p.id == postId) with
  | none => s
  | some _ =>
    { s with
        posts := s.posts.map (fun p =>
          if p.id == postId then { p with content := some content } else p)
        posts_fts := s.posts_fts.filter (fun e => !(e.rowid == postId))
          ++ ((s.posts.filter (fun p => p.id == postId)).map
                (fun p => postFts { p with content := some content })) }

/-- The three store mutations C2 quantifies over. -/
inductive StoreOp where
  | upsert (feedId : Int) (entries : List PostEntry) (now : String)
  | updateContent (postId : Int) (content : String)
  | remove (feedId : Int)

/-- Apply one mutation; a failed (rolled-back) upsert leaves the store
unchanged. -/
def applyOp (s : Db) : StoreOp → Db
  | .upsert fid es now =>
    match upsertPosts fid es now s with
    | some (s2, _) => s2
    | none => s
  | .updateContent pid c => updatePostContent pid c s
  | .remove fid => (removeFeed fid s).1

def applyOps (ops : List StoreOp) (s : Db) : Db :=
  ops.foldl applyOp s

/-- Store well-formedness: post rowids are unique and below the next
AUTOINCREMENT value, every post references a live feed, and the fts
index holds exactly one row per post carrying that post`s current
title/summary/content. -/
def Inv (s : Db) : Prop :=
  (s.posts.map (fun p => p.id)).Nodup ∧
  (∀ p ∈ s.posts, p.id < s.next_post_id) ∧
  (∀ p ∈ s.posts, ∃ f ∈ s.feeds, f.id = p.feed_id) ∧
  s.posts_fts.Perm (s.posts.map postFts)

/-- Interface `GetPostsOptions` in db.ts, with its default values. -/
structure GetPostsOptions where
  feedId : Option Int := none
  limit : Nat := 50
  offset : Nat := 0
  unreadOnly : Bool := false
  search : Option String := none
  since : Option String := none

/-- `ORDER BY p.published_at DESC NULLS LAST` as a Bool comparator:
`postOrd p q` holds when `p` may come no later than `q`. -/
def postOrd (p q : Post) : Bool :=
  match p.published_at, q.published_at with
  | some a, some b => decide (b ≤ a)
  | some _, none => true
  | none, some _ => false
  | none, none => true

/-- The WHERE conditions of `getPosts`, ANDed: feed filter, unread
filter, `published_at >= since` (NULL compares false, as in SQL), and
membership of the fts MATCH subquery.  fts5 MATCH semantics are
delegated to the engine, modelled by the `ftsMatch` parameter. -/
def matchesFilters (ftsMatch : FtsEntry → String → Bool)
    (o : GetPostsOptions) (s : Db) (p : Post) : Bool :=
  (match o.feedId with | some fid => p.feed_id == fid | none => true) &&
  (!o.unreadOnly || p.is_read == 0) &&
  (match o.since with
   | some d => match p.published_at with
               | some pa => decide (d ≤ pa)
               | none => false
   | none => true) &&
  (match o.search with
   | some q => s.posts_fts.any (fun e => e.rowid == p.id && ftsMatch e q)
   | none => true)

/-- `getPosts`: join posts with feeds, apply the filters, sort by
published time descending with NULLs last, then `LIMIT ? OFFSET ?`. -/
def getPosts (ftsMatch : FtsEntry → String → Bool)
    (o : GetPostsOptions) (s : Db) : List Post :=
  (((((s.posts.flatMap (fun p =>
        (s.feeds.filter (fun f => f.id == p.feed_id)).map
          (fun f => { p with feed_title := f.title, feed_url := some f.url }))).filter
      (matchesFilters ftsMatch o s)).mergeSort postOrd).drop o.offset).take o.limit)

/-- `MAX_CONTENT_LENGTH` in db.ts. -/
def MAX_CONTENT_LENGTH : Nat := 5000

/-- `TRUNCATION_MARKER` in db.ts. -/
def TRUNCATION_MARKER : String :=
  "\n\n[Content truncated. Use full=true for complete article.]"

/-- JS `string.length` (count of code units; the marker and contents are
modelled unit-per-char). -/
def jsLength (s : String) : Nat := s.data.length

/-- JS `string.slice(0, n)`. -/
def jsSlice (s : String) (n : Nat) : String := String.mk (s.data.take n)

/-- The object returned by `getPostContent`: the joined row spread with
the (possibly truncated, never null) `content` string and the
`truncated` flag. -/
structure PostContent where
  row : Post
  content : String
  truncated : Bool
deriving DecidableEq, Repr

/-- `getPostContent(postId, full)`: select the post joined with its
feed; absent id gives null.  `content = row.content ?? ""`; when `full`
is false and the content exceeds the cap it is sliced to the cap with
the marker appended and `truncated` set. -/
def getPostContent (postId : Int) (full : Bool) (s : Db) : Option PostContent :=
  match (s.posts.find? (fun p => p.id == postId)).bind
      (fun p => (s.feeds.find? (fun f => f.id == p.feed_id)).map
        (fun f => { p with feed_title := f.title })) with
  | none => none
  | some row =>
    let content := row.content.getD ""
    if !full && decide (MAX_CONTENT_LENGTH < jsLength content) then
      some { row := row,
             content := jsSlice content MAX_CONTENT_LENGTH ++ TRUNCATION_MARKER,
             truncated := true }
    else
      some { row := row, content := content, truncated := false }

/-! ## The refresh_feeds tool (index.ts) -/

/-- Outcome of `fetchFeed` followed by `parseFeed` for one feed: a
thrown exception (from either), a 304 (`xml === null`), or a parsed
feed. -/
inductive FetchOutcome where
  | failed (message : String)
  | notModified
  | ok (title siteUrl : Option String) (etag lastModified : Option String)
      (entries : List PostEntry)

/-- One element of the refresh report`s `errors` array. -/
structure RefreshError where
  feed_id : Int
  url : String
  message : String
deriving DecidableEq, Repr

/-- The refresh report (`results` object in the tool handler). -/
structure RefreshResults where
  refreshed : Nat
  new_posts : Nat
  skipped : Nat
  errors : List RefreshError
deriving DecidableEq, Repr

/-- `minInterval = 15 * 60 * 1000` (15 minutes in ms). -/
def minInterval : Int := 15 * 60 * 1000

/-- Message of the exception better-sqlite3 raises when an insert
violates the posts→feeds foreign key (caught by the per-feed try). -/
def fkFailMessage : String := "SqliteError: FOREIGN KEY constraint failed"

/-- The body of the per-feed `try` block: fetch+parse (via the `fetchO`
oracle, keyed by url and stored validators), then on success
`upsertPosts` followed by `updateFeedMeta`; any exception lands in the
`errors` array with the feed id, url and message, and processing
continues. -/
def refreshFetch (fetchO : String → Option String → Option String → FetchOutcome)
    (nowStr : String) (acc : Db × RefreshResults) (feed : Feed) :
    Db × RefreshResults :=
  match fetchO feed.url feed.etag feed.last_modified with
  | .failed msg =>
    (acc.1, { acc.2 with
        errors := acc.2.errors ++ [{ feed_id := feed.id, url := feed.url, message := msg }] })
  | .notModified =>
    (acc.1, { acc.2 with skipped := acc.2.skipped + 1 })
  | .ok title siteUrl etag lm entries =>
    match upsertPosts feed.id entries nowStr acc.1 with
    | none =>
      (acc.1, { acc.2 with
          errors := acc.2.errors ++ [{ feed_id := feed.id, url := feed.url, message := fkFailMessage }] })
    | some (s1, count) =>
      (updateFeedMeta feed.id title siteUrl etag lm nowStr s1,
       { acc.2 with
           refreshed := acc.2.refreshed + 1
           new_posts := acc.2.new_posts + count })

/-- One iteration of the refresh loop: the rate-limit check (a feed
fetched less than `minInterval` ms ago is skipped before any network
activity; a null `last_fetched` never rate-limits), then the fetch
path.  `getTime` models `new Date(text).getTime()`. -/
def refreshStep (now : Int) (getTime : String → Int)
    (fetchO : String → Option String → Option String → FetchOutcome)
    (nowStr : String) (acc : Db × RefreshResults) (feed : Feed) :
    Db × RefreshResults :=
  match feed.last_fetched with
  | some lf =>
    if now - getTime lf < minInterval then
      (acc.1, { acc.2 with skipped := acc.2.skipped + 1 })
    else refreshFetch fetchO nowStr acc feed
  | none => refreshFetch fetchO nowStr acc feed

/-- `feed_id ? [db.getFeed(feed_id)].filter(Boolean) : db.listFeeds()`:
JS truthiness, so a present but zero `feed_id` falls into the
`listFeeds` branch. -/
def selectFeeds (feedId : Option Int) (s : Db) : List Feed :=
  match feedId with
  | some fid => if fid == 0 then listFeeds s else (getFeed fid s).toList
  | none => listFeeds s

/-- The whole `refresh_feeds` tool handler: fold the per-feed step over
the selected feeds, starting from zero counters and an empty error
list. -/
def refresh_feeds (feedId : Option Int) (now : Int) (nowStr : String)
    (getTime : String → Int)
    (fetchO : String → Option String → Option String → FetchOutcome)
    (s : Db) : Db × RefreshResults :=
  (selectFeeds feedId s).foldl (refreshStep now getTime fetchO nowStr)
    (s, { refreshed := 0, new_posts := 0, skipped := 0, errors := [] })

/-! ## The normalizer date handling (feeds.ts) -/

/-- `toISOString` in feeds.ts: undefined or empty dates (JS falsy) give
undefined; `new Date(d)` whose time is NaN gives undefined; otherwise
the ISO rendering of the parsed instant.  JS date parsing and ISO
rendering are external, modelled by the `dateParse` / `isoOf`
parameters (`dateParse d = none` iff `isNaN(new Date(d).getTime())`). -/
def toISOString (dateParse : String → Option Int) (isoOf : Int → String)
    (date : Option String) : Option String :=
  match date with
  | none => none
  | some d =>
    if d = "" then none
    else
      match dateParse d with
      | none => none
      | some t => some (isoOf t)

/-- An RSS item as consumed by the `rss` arm of `extractEntries`. -/
structure RssItem where
  guid : Option String := none
  link : Option String := none
  title : Option String := none
  description : Option String := none
  authors : List String := []
  pubDate : Option String := none
  dcDate : Option String := none

/-- The `rss` arm of `extractEntries`: guid falls back to link then "",
`published_at := toISOString(item.pubDate ?? item.dc?.date)`. -/
def rssEntry (dateParse : String → Option Int) (isoOf : Int → String)
    (item : RssItem) : PostEntry :=
  { guid := (item.guid <|> item.link).getD ""
    title := item.title
    url := item.link
    summary := item.description
    author := item.authors.head?
    published_at := toISOString dateParse isoOf (item.pubDate <|> item.dcDate) }

/-! ## Concrete stores and oracles used by witnesses -/

/-- A store with one feed whose title and site url were supplied at
subscribe time. -/
def c4Store : Db :=
  { feeds := [{ id := 1, url := "u", title := some "T", site_url := some "S",
                last_fetched := none, etag := some "E0", last_modified := none,
                created_at := "t0" }],
    posts := [], posts_fts := [], next_post_id := 1 }

/-- A 6000-unit content string. -/
def c5Content : String := String.mk (List.replicate 6000 'a')

def c5Feed : Feed :=
  { id := 1, url := "u", title := some "F", site_url := none,
    last_fetched := none, etag := none, last_modified := none,
    created_at := "t0" }

def c5Post : Post :=
  { id := 1, feed_id := 1, guid := "g", title := some "P", url := none,
    summary := none, content := some c5Content, author := none,
    published_at := none, fetched_at := "t1", is_read := 0, read_at := none,
    starred := 0 }

/-- Store holding `c5Post` (content length 6000) under `c5Feed`. -/
def c5Store : Db :=
  { feeds := [c5Feed], posts := [c5Post], posts_fts := [postFts c5Post],
    next_post_id := 2 }

/-- Like `c5Post` but with NULL content. -/
def c9Post : Post :=
  { id := 1, feed_id := 1, guid := "g", title := some "P", url := none,
    summary := none, content := none, author := none,
    published_at := none, fetched_at := "t1", is_read := 0, read_at := none,
    starred := 0 }

/-- Store holding `c9Post` (NULL content) under `c5Feed`. -/
def c9Store : Db :=
  { feeds := [c5Feed], posts := [c9Post], posts_fts := [postFts c9Post],
    next_post_id := 2 }

/-- An oracle whose fetch+parse always succeeds with one entry. -/
def okFetch : String → Option String → Option String → FetchOutcome :=
  fun _ _ _ => .ok (some "T") none none none [{ guid := "g1" }]

/-- A concrete sequence exercising all three mutations. -/
def c2Ops : List StoreOp :=
  [StoreOp.upsert 1 [{ guid := "g" }] "t2",
   StoreOp.updateContent 1 "newc",
   StoreOp.remove 1]

/-- A feed fetched at textual instant "t0". -/
def c6Feed : Feed :=
  { id := 1, url := "u", title := none, site_url := none,
    last_fetched := some "t0", etag := none, last_modified := none,
    created_at := "t0" }

/-- Store holding only `c6Feed`. -/
def c6Store : Db :=
  { feeds := [c6Feed], posts := [], posts_fts := [], next_post_id := 1 }

/-- An oracle whose fetch or parse always throws. -/
def failFetch : String → Option String → Option String → FetchOutcome :=
  fun _ _ _ => .failed "boom"

/-- A never-fetched feed used to exercise the error path. -/
def errFeed : Feed :=
  { id := 7, url := "bad", title := none, site_url := none,
    last_fetched := none, etag := none, last_modified := none,
    created_at := "t0" }

/-- A concrete date parser recognizing only the text "x" (instant 5). -/
def wParse : String → Option Int := fun s => if s = "x" then some 5 else none

/-- A concrete ISO renderer. -/
def wIso : Int → String := fun t => toString t

/-- The `author` field of the `FeedItem` interface in src/feeds.ts: a
plain string or an object with optional name/email. -/
inductive FeedsTsAuthor where
  | str (s : String)
  | obj (name email : Option String)
deriving DecidableEq, Repr

/-- The `FeedItem` interface of src/feeds.ts. -/
structure FeedsTsItem where
  id : Option String := none
  link : Option String := none
  title : Option String := none
  description : Option String := none
  content : Option String := none
  author : Option FeedsTsAuthor := none
  published : Option String := none
deriving DecidableEq, Repr

/-- `item.published ? new Date(item.published).toISOString() : undefined`
in `parseFeed` of src/feeds.ts (lines 81-83).  There is NO validity
guard: a falsy (absent or empty) date yields undefined, but on a truthy
date that `new Date` cannot parse, `toISOString()` raises
`RangeError: Invalid time value`, modelled as `Except.error`. -/
def publishedUnguarded (dateParse : String → Option Int) (isoOf : Int → String)
    (published : Option String) : Except String (Option String) :=
  match published with
  | none => .ok none
  | some d =>
    if d = "" then .ok none
    else
      match dateParse d with
      | none => .error "RangeError: Invalid time value"
      | some t => .ok (some (isoOf t))

/-- One iteration of the entries map in `parseFeed` of src/feeds.ts
(lines 67-85): guid from id then link then "", summary from description
then content, author from the string or the name-then-email fields, and
the unguarded published_at computation. -/
def feedsTsEntry (dateParse : String → Option Int) (isoOf : Int → String)
    (item : FeedsTsItem) : Except String PostEntry :=
  (publishedUnguarded dateParse isoOf item.published).map (fun pa =>
    { guid := (item.id <|> item.link).getD ""
      title := item.title
      url := item.link
      summary := item.description <|> item.content
      author := match item.author with
                | none => none
                | some (.str s) => some s
                | some (.obj n e) => n <|> e
      published_at := pa })

/-- The whole entries map of `parseFeed` in src/feeds.ts: a RangeError
raised for one item propagates out of the map, so the entire parse
fails. -/
def feedsTsEntries (dateParse : String → Option Int) (isoOf : Int → String)
    (items : List FeedsTsItem) : Except String (List PostEntry) :=
  items.mapM (feedsTsEntry dateParse isoOf)

/-! ## Lemmas about upsertGo -/

theorem upsertGo_feeds (fid : Int) (now : String) (es : List PostEntry) :
    ∀ (s : Db) (c : Nat), (upsertGo fid now es s c).1.feeds = s.feeds := by
  induction es with
  | nil => intro s c; rfl
  | cons e es ih =>
    intro s c
    cases hh : hasPost s fid e.guid with
    | false => simp [upsertGo, hh, ih, insertPostEntry]
    | true => simp [upsertGo, hh, ih]

theorem hasPost_insertPostEntry_mono (s : Db) (fid fid2 : Int) (g now : String)
    (e : PostEntry) (h : hasPost s fid2 g = true) :
    hasPost (insertPostEntry fid now e s) fid2 g = true := by
  simp only [hasPost, insertPostEntry, List.any_append] at h ⊢
  simp [h]

theorem hasPost_insertPostEntry_self (s : Db) (fid : Int) (now : String)
    (e : PostEntry) :
    hasPost (insertPostEntry fid now e s) fid e.guid = true := by
  simp [hasPost, insertPostEntry, List.any_append]

theorem upsertGo_hasPost_mono (fid : Int) (now : String) (es : List PostEntry) :
    ∀ (s : Db) (c : Nat) (fid2 : Int) (g : String),
      hasPost s fid2 g = true →
      hasPost (upsertGo fid now es s c).1 fid2 g = true := by
  induction es with
  | nil => intro s c fid2 g h; exact h
  | cons e es ih =>
    intro s c fid2 g h
    cases hh : hasPost s fid e.guid with
    | false =>
      simp only [upsertGo, hh, Bool.false_eq_true, if_false]
      exact ih _ _ _ _ (hasPost_insertPostEntry_mono s fid fid2 g now e h)
    | true =>
      simp only [upsertGo, hh, if_true]
      exact ih _ _ _ _ h

theorem upsertGo_present (fid : Int) (now : String) (es : List PostEntry) :
    ∀ (s : Db) (c : Nat) (e : PostEntry), e ∈ es →
      hasPost (upsertGo fid now es s c).1 fid e.guid = true := by
  induction es with
  | nil => intro s c e h; cases h
  | cons a es ih =>
    intro s c e h
    rcases List.mem_cons.mp h with rfl | hmem
    · cases hh : hasPost s fid e.guid with
      | true =>
        simp only [upsertGo, hh, if_true]
        exact upsertGo_hasPost_mono fid now es s c fid e.guid hh
      | false =>
        simp only [upsertGo, hh, Bool.false_eq_true, if_false]
        exact upsertGo_hasPost_mono fid now es _ _ fid e.guid
          (hasPost_insertPostEntry_self s fid now e)
    · cases hh : hasPost s fid a.guid with
      | true =>
        simp only [upsertGo, hh, if_true]
        exact ih s c e hmem
      | false =>
        simp only [upsertGo, hh, Bool.false_eq_true, if_false]
        exact ih _ _ e hmem

theorem upsertGo_fixed (fid : Int) (now : String) (es : List PostEntry) :
    ∀ (s : Db) (c : Nat),
      (∀ e ∈ es, hasPost s fid e.guid = true) →
      upsertGo fid now es s c = (s, c) := by
  induction es with
  | nil => intro s c _; rfl
  | cons e es ih =>
    intro s c h
    have he : hasPost s fid e.guid = true := h e (List.mem_cons_self e es)
    simp only [upsertGo, he, if_true]
    exact ih s c (fun x hx => h x (List.mem_cons_of_mem e hx))

theorem upsertGo_length (fid : Int) (now : String) (es : List PostEntry) :
    ∀ (s : Db) (c : Nat),
      (upsertGo fid now es s c).1.posts.length + c =
        s.posts.length + (upsertGo fid now es s c).2 := by
  induction es with
  | nil => intro s c; rfl
  | cons e es ih =>
    intro s c
    cases hh : hasPost s fid e.guid with
    | true => simp only [upsertGo, hh, if_true]; exact ih s c
    | false =>
      simp only [upsertGo, hh, Bool.false_eq_true, if_false]
      have h2 := ih (insertPostEntry fid now e s) (c + 1)
      have h3 : (insertPostEntry fid now e s).posts.length = s.posts.length + 1 := by
        simp [insertPostEntry]
      omega

theorem upsertGo_prefix (fid : Int) (now : String) (es : List PostEntry) :
    ∀ (s : Db) (c : Nat), s.posts <+: (upsertGo fid now es s c).1.posts := by
  induction es with
  | nil => intro s c; exact List.prefix_refl _
  | cons e es ih =>
    intro s c
    cases hh : hasPost s fid e.guid with
    | true => simp only [upsertGo, hh, if_true]; exact ih s c
    | false =>
      simp only [upsertGo, hh, Bool.false_eq_true, if_false]
      have h1 : s.posts <+: (insertPostEntry fid now e s).posts := by
        simp only [insertPostEntry]
        exact List.prefix_append _ _
      exact h1.trans (ih _ _)

theorem keyUnique_insertPostEntry (s : Db) (fid : Int) (now : String)
    (e : PostEntry) (hku : keyUnique s.posts)
    (hnp : hasPost s fid e.guid = false) :
    keyUnique (insertPostEntry fid now e s).posts := by
  simp only [insertPostEntry, keyUnique, List.pairwise_append]
  refine ⟨hku, List.pairwise_singleton _ _, ?_⟩
  intro a ha b hb
  simp only [List.mem_singleton] at hb
  subst hb
  simp only [hasPost, List.any_eq_false, Bool.and_eq_true, beq_iff_eq,
    not_and] at hnp
  exact fun hcon => hnp a ha hcon.1 hcon.2

theorem upsertGo_keyUnique (fid : Int) (now : String) (es : List PostEntry) :
    ∀ (s : Db) (c : Nat), keyUnique s.posts →
      keyUnique (upsertGo fid now es s c).1.posts := by
  induction es with
  | nil => intro s c h; exact h
  | cons e es ih =>
    intro s c h
    cases hh : hasPost s fid e.guid with
    | true => simp only [upsertGo, hh, if_true]; exact ih s c h
    | false =>
      simp only [upsertGo, hh, Bool.false_eq_true, if_false]
      exact ih _ _ (keyUnique_insertPostEntry s fid now e h hh)

theorem countKey_le_one (l : List Post) (fid : Int) (g : String)
    (hku : keyUnique l) : countKey l fid g ≤ 1 := by
  induction l with
  | nil => simp [countKey]
  | cons p l ih =>
    rw [keyUnique, List.pairwise_cons] at hku
    obtain ⟨hp, hl⟩ := hku
    by_cases hm : (p.feed_id == fid && p.guid == g) = true
    · have hz : countKey l fid g = 0 := by
        simp only [countKey, List.length_eq_zero]
        rw [List.filter_eq_nil_iff]
        intro q hq
        simp only [Bool.and_eq_true, beq_iff_eq] at hm ⊢
        intro hcon
        exact hp q hq ⟨hm.1.trans hcon.1.symm, hm.2.trans hcon.2.symm⟩
      have hstep : List.filter (fun q => q.feed_id == fid && q.guid == g) (p :: l)
          = p :: List.filter (fun q => q.feed_id == fid && q.guid == g) l :=
        List.filter_cons_of_pos hm
      rw [countKey, hstep, List.length_cons]
      simp only [countKey] at hz
      omega
    · have hstep : List.filter (fun q => q.feed_id == fid && q.guid == g) (p :: l)
          = List.filter (fun q => q.feed_id == fid && q.guid == g) l :=
        List.filter_cons_of_neg hm
      rw [countKey, hstep]
      exact ih hl

theorem countKey_pos_of_hasPost (s : Db) (fid : Int) (g : String)
    (h : hasPost s fid g = true) : 1 ≤ countKey s.posts fid g := by
  simp only [hasPost, List.any_eq_true] at h
  obtain ⟨p, hp, hm⟩ := h
  have hmem : p ∈ s.posts.filter (fun q => q.feed_id == fid && q.guid == g) :=
    List.mem_filter.mpr ⟨hp, hm⟩
  have := List.length_pos_of_mem hmem
  simpa [countKey] using this

/-- C1: `upsertPosts` is idempotent and deduplicating.  Given a store
whose posts satisfy the `(feed_id, guid)` UNIQUE constraint, a
successful call leaves the constraint intact, every batch entry has
exactly one persisted row for its key, the returned count equals the
number of rows actually inserted, pre-existing rows are untouched (the
old table is a prefix of the new one), and running the same batch again
inserts nothing and returns 0. -/
theorem upsertPosts_idempotent_dedup
    (s : Db) (fid : Int) (es : List PostEntry) (now now2 : String)
    (s2 : Db) (n : Nat)
    (hku : keyUnique s.posts)
    (hrun : upsertPosts fid es now s = some (s2, n)) :
    keyUnique s2.posts ∧
    (∀ e ∈ es, countKey s2.posts fid e.guid = 1) ∧
    s2.posts.length = s.posts.length + n ∧
    s.posts <+: s2.posts ∧
    upsertPosts fid es now2 s2 = some (s2, 0) := by
  by_cases hg : (es.isEmpty || s.feeds.any (fun f => f.id == fid)) = true
  · simp only [upsertPosts, hg, if_true, Option.some.injEq] at hrun
    have hs2 : (upsertGo fid now es s 0).1 = s2 := by
      rw [hrun]
    have hn : (upsertGo fid now es s 0).2 = n := by
      rw [hrun]
    have hku2 : keyUnique s2.posts := hs2 ▸ upsertGo_keyUnique fid now es s 0 hku
    refine ⟨hku2, ?_, ?_, ?_, ?_⟩
    · intro e he
      have h1 : hasPost s2 fid e.guid = true :=
        hs2 ▸ upsertGo_present fid now es s 0 e he
      exact Nat.le_antisymm (countKey_le_one s2.posts fid e.guid hku2)
        (countKey_pos_of_hasPost s2 fid e.guid h1)
    · have := upsertGo_length fid now es s 0
      rw [hs2, hn] at this
      omega
    · exact hs2 ▸ upsertGo_prefix fid now es s 0
    · have hf : s2.feeds = s.feeds := hs2 ▸ upsertGo_feeds fid now es s 0
      have hg2 : (es.isEmpty || s2.feeds.any (fun f => f.id == fid)) = true := by
        rw [hf]; exact hg
      have hall : ∀ e ∈ es, hasPost s2 fid e.guid = true := by
        intro e he
        exact hs2 ▸ upsertGo_present fid now es s 0 e he
      simp only [upsertPosts, hg2, if_true, Option.some.injEq]
      exact upsertGo_fixed fid now2 es s2 0 hall
  · simp [upsertPosts, hg] at hrun

/-- Witness for C1: a batch with two entries sharing guid "abc" against
an empty store with one feed yields exactly one persisted post, count 1,
and a second run returns 0. -/
theorem upsertPosts_idempotent_dedup_witness :
    keyUnique upsertC1s2.posts ∧
    (∀ e ∈ [({ guid := "abc" } : PostEntry), ({ guid := "abc" } : PostEntry)],
      countKey upsertC1s2.posts 1 e.guid = 1) ∧
    upsertC1s2.posts.length = upsertC1s0.posts.length + 1 ∧
    upsertC1s0.posts <+: upsertC1s2.posts ∧
    upsertPosts 1 [({ guid := "abc" } : PostEntry), ({ guid := "abc" } : PostEntry)]
      "t2" upsertC1s2 = some (upsertC1s2, 0) :=
  upsertPosts_idempotent_dedup upsertC1s0 1
    [{ guid := "abc" }, { guid := "abc" }] "t1" "t2" upsertC1s2 1
    (by simp [keyUnique, upsertC1s0]) (by decide)

/-! ## C4: updateFeedMeta effect and frame -/

/-- C4: `updateFeedMeta` applies title/siteUrl only when non-null
(nulls preserve the stored values), always overwrites the etag and
last-modified validators (including to null), always sets the
last-fetched timestamp to now, and changes nothing else: id, url and
creation time are untouched, feeds with a different id are untouched,
and the posts table and fts index are untouched. -/
theorem updateFeedMeta_frame
    (fid : Int) (title siteUrl etag lm : Option String) (now : String)
    (s : Db) (i : Nat) (h : i < s.feeds.length)
    (h2 : i < (updateFeedMeta fid title siteUrl etag lm now s).feeds.length) :
    ((updateFeedMeta fid title siteUrl etag lm now s).feeds.get ⟨i, h2⟩).id
        = (s.feeds.get ⟨i, h⟩).id ∧
    ((updateFeedMeta fid title siteUrl etag lm now s).feeds.get ⟨i, h2⟩).url
        = (s.feeds.get ⟨i, h⟩).url ∧
    ((updateFeedMeta fid title siteUrl etag lm now s).feeds.get ⟨i, h2⟩).created_at
        = (s.feeds.get ⟨i, h⟩).created_at ∧
    ((s.feeds.get ⟨i, h⟩).id = fid →
      ((updateFeedMeta fid title siteUrl etag lm now s).feeds.get ⟨i, h2⟩).last_fetched
          = some now ∧
      ((updateFeedMeta fid title siteUrl etag lm now s).feeds.get ⟨i, h2⟩).etag = etag ∧
      ((updateFeedMeta fid title siteUrl etag lm now s).feeds.get ⟨i, h2⟩).last_modified
          = lm ∧
      (title = none →
        ((updateFeedMeta fid title siteUrl etag lm now s).feeds.get ⟨i, h2⟩).title
          = (s.feeds.get ⟨i, h⟩).title) ∧
      (∀ t, title = some t →
        ((updateFeedMeta fid title siteUrl etag lm now s).feeds.get ⟨i, h2⟩).title
          = some t) ∧
      (siteUrl = none →
        ((updateFeedMeta fid title siteUrl etag lm now s).feeds.get ⟨i, h2⟩).site_url
          = (s.feeds.get ⟨i, h⟩).site_url) ∧
      (∀ u, siteUrl = some u →
        ((updateFeedMeta fid title siteUrl etag lm now s).feeds.get ⟨i, h2⟩).site_url
          = some u)) ∧
    ((s.feeds.get ⟨i, h⟩).id ≠ fid →
      (updateFeedMeta fid title siteUrl etag lm now s).feeds.get ⟨i, h2⟩
        = s.feeds.get ⟨i, h⟩) ∧
    (updateFeedMeta fid title siteUrl etag lm now s).posts = s.posts ∧
    (updateFeedMeta fid title siteUrl etag lm now s).posts_fts = s.posts_fts := by
  simp only [updateFeedMeta, List.get_eq_getElem, List.getElem_map]
  by_cases hid : s.feeds[i].id = fid
  · have hb : (s.feeds[i].id == fid) = true := by simp [hid]
    simp only [hb, if_true]
    refine ⟨by trivial, by trivial, by trivial,
      fun _ => ⟨by trivial, by trivial, by trivial, ?_, ?_, ?_, ?_⟩,
      fun hc => absurd hid hc, by trivial, by trivial⟩
    · intro ht; subst ht; rfl
    · intro t ht; subst ht; rfl
    · intro hu; subst hu; rfl
    · intro u hu; subst hu; rfl
  · have hb : (s.feeds[i].id == fid) = false := by
      simp [hid]
    simp only [hb, Bool.false_eq_true, if_false]
    exact ⟨by trivial, by trivial, by trivial, fun hc => absurd hc hid,
      fun _ => by trivial, by trivial, by trivial⟩

/-- Witness for C4: on `c4Store` (feed 1 subscribed with title "T" and
site url "S"), a metadata update passing null title/siteUrl keeps both,
overwrites etag to null and last-modified to "LM", and sets
last-fetched. -/
theorem updateFeedMeta_frame_witness :
    ((updateFeedMeta 1 none none none (some "LM") "t9" c4Store).feeds.get
        ⟨0, by decide⟩).title = some "T" ∧
    ((updateFeedMeta 1 none none none (some "LM") "t9" c4Store).feeds.get
        ⟨0, by decide⟩).site_url = some "S" ∧
    ((updateFeedMeta 1 none none none (some "LM") "t9" c4Store).feeds.get
        ⟨0, by decide⟩).etag = none ∧
    ((updateFeedMeta 1 none none none (some "LM") "t9" c4Store).feeds.get
        ⟨0, by decide⟩).last_modified = some "LM" ∧
    ((updateFeedMeta 1 none none none (some "LM") "t9" c4Store).feeds.get
        ⟨0, by decide⟩).last_fetched = some "t9" := by
  have H := updateFeedMeta_frame 1 none none none (some "LM") "t9" c4Store 0
    (by decide) (by decide)
  obtain ⟨-, -, -, heff, -, -, -⟩ := H
  have heq : (c4Store.feeds.get ⟨0, by decide⟩).id = 1 := by decide
  obtain ⟨hlf, hetag, hlm, htitle, -, hsite, -⟩ := heff heq
  have ht : (c4Store.feeds.get ⟨0, by decide⟩).title = some "T" := by decide
  have hs : (c4Store.feeds.get ⟨0, by decide⟩).site_url = some "S" := by decide
  exact ⟨(htitle rfl).trans ht, (hsite rfl).trans hs, hetag, hlm, hlf⟩

/-! ## C5 / C9: getPostContent -/

theorem jsLength_append (a b : String) :
    jsLength (a ++ b) = jsLength a + jsLength b := by
  cases a with
  | mk la =>
    cases b with
    | mk lb => simp [jsLength, String.append]

theorem jsLength_jsSlice (c : String) (n : Nat) :
    jsLength (jsSlice c n) = min n (jsLength c) := by
  simp [jsLength, jsSlice, List.length_take]

/-- C5: `getPostContent` with `full=false` on a post whose content has
length 6000 returns content of length 5000 plus the marker length with
`truncated=true`; with `full=true` it returns the stored 6000-length
content with `truncated=false`; content at or under the cap is returned
unmodified with `truncated=false` for either flag; and an id with no
post yields null. -/
theorem getPostContent_spec (s : Db) (pid : Int) :
    (∀ p f c,
      s.posts.find? (fun q => q.id == pid) = some p →
      s.feeds.find? (fun g => g.id == p.feed_id) = some f →
      p.content = some c →
      (jsLength c = 6000 →
        (∃ r, getPostContent pid false s = some r ∧ r.truncated = true ∧
          jsLength r.content = MAX_CONTENT_LENGTH + jsLength TRUNCATION_MARKER) ∧
        (∃ r, getPostContent pid true s = some r ∧ r.truncated = false ∧
          r.content = c ∧ jsLength r.content = 6000)) ∧
      (jsLength c ≤ MAX_CONTENT_LENGTH →
        ∀ full, ∃ r, getPostContent pid full s = some r ∧ r.truncated = false ∧
          r.content = c)) ∧
    ((∀ p ∈ s.posts, p.id ≠ pid) →
      getPostContent pid false s = none ∧ getPostContent pid true s = none) := by
  constructor
  · intro p f c hp hf hc
    constructor
    · intro h6000
      have hgt : MAX_CONTENT_LENGTH < jsLength c := by
        rw [h6000, MAX_CONTENT_LENGTH]; omega
      constructor
      · refine ⟨{ row := { p with feed_title := f.title },
                  content := jsSlice c MAX_CONTENT_LENGTH ++ TRUNCATION_MARKER,
                  truncated := true }, ?_, rfl, ?_⟩
        · simp [getPostContent, hp, hf, hc, hgt]
        · rw [jsLength_append, jsLength_jsSlice, h6000]
          rw [MAX_CONTENT_LENGTH]
          omega
      · refine ⟨{ row := { p with feed_title := f.title },
                  content := c, truncated := false }, ?_, rfl, rfl, h6000⟩
        simp [getPostContent, hp, hf, hc]
    · intro hle full
      have hngt : ¬(MAX_CONTENT_LENGTH < jsLength c) := by omega
      refine ⟨{ row := { p with feed_title := f.title },
                content := c, truncated := false }, ?_, rfl, rfl⟩
      simp [getPostContent, hp, hf, hc, hngt]
  · intro hno
    have hfind : s.posts.find? (fun q => q.id == pid) = none := by
      apply List.find?_eq_none.mpr
      intro q hq
      simp [hno q hq]
    constructor <;> simp [getPostContent, hfind]

/-- Witness for C5 on the concrete store `c5Store` (post 1 has content
of length 6000): truncated read, full read, and the absent id 2. -/
theorem getPostContent_spec_witness :
    (∃ r, getPostContent 1 false c5Store = some r ∧ r.truncated = true ∧
      jsLength r.content = MAX_CONTENT_LENGTH + jsLength TRUNCATION_MARKER) ∧
    (∃ r, getPostContent 1 true c5Store = some r ∧ r.truncated = false ∧
      r.content = c5Content ∧ jsLength r.content = 6000) ∧
    (getPostContent 2 false c5Store = none ∧ getPostContent 2 true c5Store = none) := by
  have hdata : c5Content.data = List.replicate 6000 'a' := rfl
  have h6000 : jsLength c5Content = 6000 := by
    unfold jsLength
    rw [hdata]
    exact List.length_replicate 6000 _
  have H1 := ((getPostContent_spec c5Store 1).1 c5Post c5Feed c5Content
    rfl rfl rfl).1 h6000
  have H2 := (getPostContent_spec c5Store 2).2 (by decide)
  exact ⟨H1.1, H1.2, H2⟩

/-- C9: `getPostContent` on an existing post with NULL stored content
returns the post with empty-string content (never null) and
`truncated=false`, for both values of `full`. -/
theorem getPostContent_nullContent (s : Db) (pid : Int) (p : Post) (f : Feed)
    (hp : s.posts.find? (fun q => q.id == pid) = some p)
    (hf : s.feeds.find? (fun g => g.id == p.feed_id) = some f)
    (hc : p.content = none) :
    ∀ full, ∃ r, getPostContent pid full s = some r ∧ r.content = "" ∧
      r.truncated = false := by
  intro full
  refine ⟨{ row := { p with feed_title := f.title },
            content := "", truncated := false }, ?_, rfl, rfl⟩
  have hz : ¬(MAX_CONTENT_LENGTH < jsLength "") := by
    simp [jsLength, MAX_CONTENT_LENGTH]
  simp [getPostContent, hp, hf, hc, hz]

/-- Witness for C9 on `c9Store` (post 1 has NULL content). -/
theorem getPostContent_nullContent_witness :
    (∃ r, getPostContent 1 false c9Store = some r ∧ r.content = "" ∧
      r.truncated = false) ∧
    (∃ r, getPostContent 1 true c9Store = some r ∧ r.content = "" ∧
      r.truncated = false) :=
  ⟨getPostContent_nullContent c9Store 1 c9Post c5Feed rfl rfl rfl false,
   getPostContent_nullContent c9Store 1 c9Post c5Feed rfl rfl rfl true⟩

/-! ## C3: getPosts ordering -/

theorem postOrd_trans (a b c : Post) :
    postOrd a b = true → postOrd b c = true → postOrd a c = true := by
  unfold postOrd
  cases hpa : a.published_at <;> cases hpb : b.published_at <;>
    cases hpc : c.published_at <;> simp
  exact fun h1 h2 => le_trans h2 h1

theorem postOrd_total (a b : Post) : (postOrd a b || postOrd b a) = true := by
  unfold postOrd
  cases hpa : a.published_at <;> cases hpb : b.published_at <;> simp
  exact le_total _ _

/-- C3: for every fts matcher, every filter and every store, the list
returned by `getPosts` is pairwise ordered: a post with a null
published time is never followed by one with a non-null time, and when
both are dated the later (or equal) date comes first. -/
theorem getPosts_sorted (m : FtsEntry → String → Bool)
    (o : GetPostsOptions) (s : Db) :
    (getPosts m o s).Pairwise (fun p q =>
      (p.published_at = none → q.published_at = none) ∧
      (∀ b, q.published_at = some b → ∃ a, p.published_at = some a ∧ b ≤ a)) := by
  have hs : ((((s.posts.flatMap (fun p =>
        (s.feeds.filter (fun f => f.id == p.feed_id)).map
          (fun f => { p with feed_title := f.title, feed_url := some f.url }))).filter
      (matchesFilters m o s)).mergeSort postOrd)).Pairwise (fun p q => postOrd p q = true) :=
    List.sorted_mergeSort postOrd_trans postOrd_total _
  have hp : (getPosts m o s).Pairwise (fun p q => postOrd p q = true) := by
    unfold getPosts
    exact List.Pairwise.sublist
      ((List.take_sublist _ _).trans (List.drop_sublist _ _)) hs
  refine hp.imp ?_
  intro p q hpq
  constructor
  · intro hp0
    cases hq0 : q.published_at with
    | none => rfl
    | some b => simp [postOrd, hp0, hq0] at hpq
  · intro b hb
    cases hp0 : p.published_at with
    | none => simp [postOrd, hp0, hb] at hpq
    | some a =>
      refine ⟨a, rfl, ?_⟩
      simpa [postOrd, hp0, hb] using hpq

/-! ## C2: the fts index stays synchronized -/

theorem insertPostEntry_inv (s : Db) (fid : Int) (now : String) (e : PostEntry)
    (h : Inv s) (hf : ∃ f ∈ s.feeds, f.id = fid) :
    Inv (insertPostEntry fid now e s) := by
  obtain ⟨hnd, hbound, hfk, hperm⟩ := h
  refine ⟨?_, ?_, ?_, ?_⟩
  · simp only [insertPostEntry, List.map_append, List.map_cons, List.map_nil]
    rw [List.nodup_append]
    refine ⟨hnd, List.nodup_singleton _, ?_⟩
    intro a ha hmem
    simp only [List.mem_singleton] at hmem
    have hm2 : a = s.next_post_id := hmem
    obtain ⟨q, hq, rfl⟩ := List.mem_map.mp ha
    have := hbound q hq
    omega
  · intro q hq
    simp only [insertPostEntry, List.mem_append, List.mem_singleton] at hq
    show q.id < s.next_post_id + 1
    rcases hq with hq | rfl
    · have := hbound q hq
      omega
    · show s.next_post_id < s.next_post_id + 1
      omega
  · intro q hq
    simp only [insertPostEntry, List.mem_append, List.mem_singleton] at hq
    rcases hq with hq | rfl
    · obtain ⟨f, hfmem, hfid⟩ := hfk q hq
      exact ⟨f, hfmem, hfid⟩
    · obtain ⟨f, hfmem, hfid⟩ := hf
      exact ⟨f, hfmem, hfid⟩
  · simp only [insertPostEntry, List.map_append, List.map_cons, List.map_nil]
    exact List.Perm.append_right _ hperm

theorem upsertGo_inv (fid : Int) (now : String) (es : List PostEntry) :
    ∀ (s : Db) (c : Nat), Inv s → (∃ f ∈ s.feeds, f.id = fid) →
      Inv (upsertGo fid now es s c).1 := by
  induction es with
  | nil => intro s c h _; exact h
  | cons e es ih =>
    intro s c h hf
    cases hh : hasPost s fid e.guid with
    | true => simp only [upsertGo, hh, if_true]; exact ih s c h hf
    | false =>
      simp only [upsertGo, hh, Bool.false_eq_true, if_false]
      refine ih _ _ (insertPostEntry_inv s fid now e h hf) ?_
      obtain ⟨f, hfmem, hfid⟩ := hf
      exact ⟨f, hfmem, hfid⟩

theorem upsertPosts_inv (fid : Int) (es : List PostEntry) (now : String)
    (s s2 : Db) (n : Nat) (h : Inv s)
    (hrun : upsertPosts fid es now s = some (s2, n)) : Inv s2 := by
  by_cases hg : (es.isEmpty || s.feeds.any (fun f => f.id == fid)) = true
  · simp only [upsertPosts, hg, if_true, Option.some.injEq] at hrun
    cases es with
    | nil =>
      have h1 : s = s2 := congrArg Prod.fst hrun
      exact h1 ▸ h
    | cons e es =>
      have hf : ∃ f ∈ s.feeds, f.id = fid := by
        rcases (Bool.or_eq_true _ _) ▸ hg with hemp | hany
        · simp [List.isEmpty] at hemp
        · obtain ⟨f, hfmem, hfid⟩ := List.any_eq_true.mp hany
          exact ⟨f, hfmem, by simpa using hfid⟩
      have hInv2 := upsertGo_inv fid now (e :: es) s 0 h hf
      rw [hrun] at hInv2
      exact hInv2
  · simp [upsertPosts, hg] at hrun

theorem updatePostContent_inv (pid : Int) (content : String) (s : Db)
    (h : Inv s) : Inv (updatePostContent pid content s) := by
  obtain ⟨hnd, hbound, hfk, hperm⟩ := h
  unfold updatePostContent
  cases hfind : s.posts.find? (fun p => p.id == pid) with
  | none => exact ⟨hnd, hbound, hfk, hperm⟩
  | some p0 =>
    have hid : ∀ r : Post,
        ((if r.id == pid then { r with content := some content } else r) : Post).id
          = r.id := by
      intro r
      by_cases hc : (r.id == pid) = true <;> simp [hc]
    have hfeed : ∀ r : Post,
        ((if r.id == pid then { r with content := some content } else r) : Post).feed_id
          = r.feed_id := by
      intro r
      by_cases hc : (r.id == pid) = true <;> simp [hc]
    refine ⟨?_, ?_, ?_, ?_⟩
    · show (List.map (fun p => p.id) (s.posts.map (fun p =>
        if p.id == pid then { p with content := some content } else p))).Nodup
      rw [List.map_map]
      have hcomp : ((fun p : Post => p.id) ∘ (fun p : Post =>
          if p.id == pid then { p with content := some content } else p))
          = fun p : Post => p.id := funext fun p => hid p
      rw [hcomp]
      exact hnd
    · intro q hq
      obtain ⟨r, hr, rfl⟩ := List.mem_map.mp hq
      show ((if r.id == pid then { r with content := some content } else r) : Post).id
        < s.next_post_id
      rw [hid r]
      exact hbound r hr
    · intro q hq
      obtain ⟨r, hr, rfl⟩ := List.mem_map.mp hq
      obtain ⟨f, hfmem, hfid⟩ := hfk r hr
      exact ⟨f, hfmem, by rw [hfeed r, ← hfid]⟩
    · show List.Perm
        (s.posts_fts.filter (fun e => !(e.rowid == pid))
          ++ (s.posts.filter (fun p => p.id == pid)).map
               (fun p => postFts { p with content := some content }))
        ((s.posts.map (fun p =>
            if p.id == pid then { p with content := some content } else p)).map postFts)
      have h1 : List.Perm (s.posts_fts.filter (fun e => !(e.rowid == pid)))
          ((s.posts.filter (fun p => !(p.id == pid))).map postFts) := by
        have hstep := hperm.filter (fun e => !(e.rowid == pid))
        rw [List.filter_map] at hstep
        exact hstep
      have hcongr1 : (s.posts.filter (fun p => p.id == pid)).map
            (fun p => postFts { p with content := some content })
          = (s.posts.filter (fun p => p.id == pid)).map
            (postFts ∘ (fun p : Post =>
              if p.id == pid then { p with content := some content } else p)) := by
        refine List.map_congr_left ?_
        intro a ha
        have hq := (List.mem_filter.mp ha).2
        simp [Function.comp, hq]
      have hcongr2 : (s.posts.filter (fun p => !(p.id == pid))).map postFts
          = (s.posts.filter (fun p => !(p.id == pid))).map
            (postFts ∘ (fun p : Post =>
              if p.id == pid then { p with content := some content } else p)) := by
        refine List.map_congr_left ?_
        intro a ha
        have hq := (List.mem_filter.mp ha).2
        have hq2 : (a.id == pid) = false := by
          cases hv : (a.id == pid) with
          | true => rw [hv] at hq; simp at hq
          | false => rfl
        simp [Function.comp, hq2]
      have h2 : List.Perm
          ((s.posts.filter (fun p => p.id == pid)).map
            (fun p => postFts { p with content := some content })
          ++ (s.posts.filter (fun p => !(p.id == pid))).map postFts)
          ((s.posts.map (fun p =>
              if p.id == pid then { p with content := some content } else p)).map postFts) := by
        rw [List.map_map, hcongr1, hcongr2, ← List.map_append]
        exact List.Perm.map _ (List.filter_append_perm _ _)
      exact List.perm_append_comm.trans ((List.Perm.append_left _ h1).trans h2)

theorem removeFeed_inv (fid : Int) (s : Db) (h : Inv s) :
    Inv (removeFeed fid s).1 := by
  obtain ⟨hnd, hbound, hfk, hperm⟩ := h
  refine ⟨?_, ?_, ?_, ?_⟩
  · show (List.map (fun p => p.id)
      (s.posts.filter (fun p => !(p.feed_id == fid)))).Nodup
    exact List.Nodup.sublist (List.Sublist.map _ (List.filter_sublist _)) hnd
  · intro q hq
    exact hbound q (List.mem_filter.mp hq).1
  · intro q hq
    obtain ⟨hqmem, hqcond⟩ := List.mem_filter.mp hq
    obtain ⟨f, hfmem, hfid⟩ := hfk q hqmem
    refine ⟨f, List.mem_filter.mpr ⟨hfmem, ?_⟩, hfid⟩
    rw [hfid]
    exact hqcond
  · show List.Perm
      (s.posts_fts.filter (fun e =>
        !(((s.posts.filter (fun p => p.feed_id == fid)).map (fun p => p.id)).contains
          e.rowid)))
      ((s.posts.filter (fun p => !(p.feed_id == fid))).map postFts)
    have h1 : List.Perm
        (s.posts_fts.filter (fun e =>
          !(((s.posts.filter (fun p => p.feed_id == fid)).map (fun p => p.id)).contains
            e.rowid)))
        ((s.posts.filter (fun p =>
          !(((s.posts.filter (fun p2 => p2.feed_id == fid)).map
              (fun p2 => p2.id)).contains p.id))).map postFts) := by
      have hstep := hperm.filter (fun e =>
        !(((s.posts.filter (fun p => p.feed_id == fid)).map (fun p => p.id)).contains
          e.rowid))
      rw [List.filter_map] at hstep
      exact hstep
    have h2 : (s.posts.filter (fun p =>
          !(((s.posts.filter (fun p2 => p2.feed_id == fid)).map
              (fun p2 => p2.id)).contains p.id)))
        = s.posts.filter (fun p => !(p.feed_id == fid)) := by
      refine List.filter_congr ?_
      intro a ha
      cases hv : (a.feed_id == fid) with
      | true =>
        have hmem : a.id ∈ (s.posts.filter (fun p2 => p2.feed_id == fid)).map
            (fun p2 => p2.id) :=
          List.mem_map.mpr ⟨a, List.mem_filter.mpr ⟨ha, hv⟩, rfl⟩
        have hcont : ((s.posts.filter (fun p2 => p2.feed_id == fid)).map
            (fun p2 => p2.id)).contains a.id = true :=
          List.elem_iff.mpr hmem
        rw [hcont]
      | false =>
        have hcont : ((s.posts.filter (fun p2 => p2.feed_id == fid)).map
            (fun p2 => p2.id)).contains a.id = false := by
          cases hc : ((s.posts.filter (fun p2 => p2.feed_id == fid)).map
              (fun p2 => p2.id)).contains a.id with
          | false => rfl
          | true =>
            exfalso
            have hmem := List.elem_iff.mp hc
            obtain ⟨b, hb, hbid⟩ := List.mem_map.mp hmem
            obtain ⟨hbmem, hbcond⟩ := List.mem_filter.mp hb
            have hba : b = a := List.inj_on_of_nodup_map hnd hbmem ha hbid
            rw [hba, hv] at hbcond
            exact absurd hbcond (by simp)
        rw [hcont]
    rw [h2] at h1
    exact h1

theorem applyOp_inv (s : Db) (op : StoreOp) (h : Inv s) : Inv (applyOp s op) := by
  cases op with
  | upsert fid es now =>
    simp only [applyOp]
    cases hres : upsertPosts fid es now s with
    | none => exact h
    | some pr =>
      obtain ⟨s2, n⟩ := pr
      exact upsertPosts_inv fid es now s s2 n h hres
  | updateContent pid c => exact updatePostContent_inv pid c s h
  | remove fid => exact removeFeed_inv fid s h

theorem applyOps_inv (ops : List StoreOp) : ∀ s, Inv s → Inv (applyOps ops s) := by
  induction ops with
  | nil => intro s h; exact h
  | cons op ops ih => intro s h; exact ih _ (applyOp_inv s op h)

/-- After removing a feed, no post of that feed is reachable through
`getPosts` filtered to it, whatever the other filters and the fts
matcher. -/
theorem getPosts_removed_feed (m : FtsEntry → String → Bool) (fid : Int)
    (s : Db) (o : GetPostsOptions) (ho : o.feedId = some fid) :
    getPosts m o (removeFeed fid s).1 = [] := by
  unfold getPosts
  have hnil : (((removeFeed fid s).1.posts.flatMap (fun p =>
      ((removeFeed fid s).1.feeds.filter (fun f => f.id == p.feed_id)).map
        (fun f => { p with feed_title := f.title, feed_url := some f.url }))).filter
      (matchesFilters m o (removeFeed fid s).1)) = [] := by
    rw [List.filter_eq_nil_iff]
    intro row hrow
    obtain ⟨p, hp, hrow2⟩ := List.mem_flatMap.mp hrow
    obtain ⟨f, hf, hrowEq⟩ := List.mem_map.mp hrow2
    have hcond : (!(p.feed_id == fid)) = true := (List.mem_filter.mp hp).2
    have hfeedid : (p.feed_id == fid) = false := by
      cases hx : (p.feed_id == fid) with
      | false => rfl
      | true => rw [hx] at hcond; simp at hcond
    intro hmatch
    rw [← hrowEq] at hmatch
    simp only [matchesFilters, ho, Bool.and_eq_true] at hmatch
    have : (p.feed_id == fid) = true := hmatch.1.1.1
    rw [hfeedid] at this
    exact absurd this (by simp)
  rw [hnil]
  simp [List.mergeSort_nil, List.drop_nil, List.take_nil]

/-- C2: after any sequence of upsertPosts / updatePostContent /
removeFeed operations on a well-formed store, the store stays
well-formed and the fts index is exactly the multiset of live posts,
each entry carrying the post`s current title/summary/content; removing
a feed then leaves no post of that feed, keeps the index exact, and
makes no post of that feed queryable through `getPosts`. -/
theorem search_index_synchronized (ops : List StoreOp) (s s2 : Db)
    (hInv : Inv s) (hs2 : s2 = applyOps ops s) :
    Inv s2 ∧
    s2.posts_fts.Perm (s2.posts.map postFts) ∧
    (∀ fid : Int,
      (∀ p ∈ (removeFeed fid s2).1.posts, p.feed_id ≠ fid) ∧
      (removeFeed fid s2).1.posts_fts.Perm
        ((removeFeed fid s2).1.posts.map postFts) ∧
      (∀ m lim off uo se si, getPosts m
          { feedId := some fid, limit := lim, offset := off,
            unreadOnly := uo, search := se, since := si }
          (removeFeed fid s2).1 = [])) := by
  subst hs2
  have hI := applyOps_inv ops s hInv
  refine ⟨hI, hI.2.2.2, ?_⟩
  intro fid
  have hIr := removeFeed_inv fid _ hI
  refine ⟨?_, hIr.2.2.2, ?_⟩
  · intro p hp
    have hc : (!(p.feed_id == fid)) = true := (List.mem_filter.mp hp).2
    simpa using hc
  · intro m lim off uo se si
    exact getPosts_removed_feed m fid _ _ rfl

/-- Witness for C2: the concrete op sequence `c2Ops` (insert a post,
rewrite its content, remove its feed) on the one-feed store. -/
theorem search_index_synchronized_witness :
    Inv (applyOps c2Ops upsertC1s0) ∧
    (applyOps c2Ops upsertC1s0).posts_fts.Perm
      ((applyOps c2Ops upsertC1s0).posts.map postFts) ∧
    getPosts (fun _ _ => false)
      { feedId := some 1, limit := 50, offset := 0,
        unreadOnly := false, search := none, since := none }
      (removeFeed 1 (applyOps c2Ops upsertC1s0)).1 = [] := by
  have H := search_index_synchronized c2Ops upsertC1s0 (applyOps c2Ops upsertC1s0)
    (by unfold Inv; decide) rfl
  exact ⟨H.1, H.2.1, (H.2.2 1).2.2 (fun _ _ => false) 50 0 false none none⟩

/-! ## C6 / C7 / C10: the refresh orchestrator -/

/-- C6: a feed whose last-fetched instant lies within the 15-minute
cooldown is counted as skipped, with the store untouched and no use of
the fetcher (the equation holds for every oracle); a feed with null
last-fetched is always eligible and, when fetch+parse+upsert succeed,
is refreshed; and a whole `refresh_feeds` run on a single just-fetched
feed reports 0 refreshed, 0 new posts, 1 skipped and no errors, leaving
the store unchanged. -/
theorem refresh_rate_limit
    (now : Int) (getTime : String → Int) (nowStr : String)
    (s : Db) (r : RefreshResults) (f : Feed) :
    (∀ lf, f.last_fetched = some lf → now - getTime lf < minInterval →
      ∀ fetchO, refreshStep now getTime fetchO nowStr (s, r) f
        = (s, { r with skipped := r.skipped + 1 })) ∧
    (f.last_fetched = none →
      ∀ fetchO t u et lm es s1 cnt,
        fetchO f.url f.etag f.last_modified = FetchOutcome.ok t u et lm es →
        upsertPosts f.id es nowStr s = some (s1, cnt) →
        refreshStep now getTime fetchO nowStr (s, r) f
          = (updateFeedMeta f.id t u et lm nowStr s1,
             { r with refreshed := r.refreshed + 1,
                      new_posts := r.new_posts + cnt })) ∧
    (∀ fid, fid ≠ 0 → getFeed fid s = some f →
      ∀ lf, f.last_fetched = some lf → now - getTime lf < minInterval →
        ∀ fetchO, refresh_feeds (some fid) now nowStr getTime fetchO s
          = (s, { refreshed := 0, new_posts := 0, skipped := 1,
                  errors := [] })) := by
  have hskip : ∀ (r2 : RefreshResults) (lf : String), f.last_fetched = some lf →
      now - getTime lf < minInterval → ∀ fetchO,
      refreshStep now getTime fetchO nowStr (s, r2) f
        = (s, { r2 with skipped := r2.skipped + 1 }) := by
    intro r2 lf hlf hlt fetchO
    simp [refreshStep, hlf, hlt]
  refine ⟨fun lf hlf hlt fetchO => hskip r lf hlf hlt fetchO, ?_, ?_⟩
  · intro hnone fetchO t u et lm es s1 cnt hfetch hupsert
    simp [refreshStep, hnone, refreshFetch, hfetch, hupsert]
  · intro fid hnz hget lf hlf hlt fetchO
    have hz : (fid == 0) = false := by simp [hnz]
    have hsel : selectFeeds (some fid) s = [f] := by
      simp [selectFeeds, hz, hget]
    unfold refresh_feeds
    rw [hsel]
    simp only [List.foldl_cons, List.foldl_nil]
    rw [hskip _ lf hlf hlt fetchO]

/-- Witness for C6: refreshing the just-fetched `c6Feed` (fetched at
time 0, now 1000 ms later) reports one skipped feed, zero new posts and
an untouched store. -/
theorem refresh_rate_limit_witness :
    refresh_feeds (some 1) 1000 "t1" (fun _ => 0) okFetch c6Store
      = (c6Store, { refreshed := 0, new_posts := 0, skipped := 1,
                    errors := [] }) :=
  (refresh_rate_limit 1000 (fun _ => 0) "t1" c6Store
    { refreshed := 0, new_posts := 0, skipped := 0, errors := [] } c6Feed).2.2
    1 (by decide) rfl "t0" rfl (by decide) okFetch

theorem refreshStep_errors_mono (now : Int) (getTime : String → Int)
    (fetchO : String → Option String → Option String → FetchOutcome)
    (nowStr : String) (acc : Db × RefreshResults) (f : Feed) :
    ∃ t0, (refreshStep now getTime fetchO nowStr acc f).2.errors
      = acc.2.errors ++ t0 := by
  unfold refreshStep refreshFetch
  cases f.last_fetched with
  | some lf =>
    by_cases hc : now - getTime lf < minInterval
    · exact ⟨[], by simp [hc]⟩
    · simp only [hc, if_false]
      cases fetchO f.url f.etag f.last_modified with
      | failed msg => exact ⟨[{ feed_id := f.id, url := f.url, message := msg }], by simp⟩
      | notModified => exact ⟨[], by simp⟩
      | ok t u et lm es =>
        cases hup : upsertPosts f.id es nowStr acc.1 with
        | none => exact ⟨[{ feed_id := f.id, url := f.url, message := fkFailMessage }], by simp [hup]⟩
        | some pr =>
          obtain ⟨s1, cnt⟩ := pr
          exact ⟨[], by simp [hup]⟩
  | none =>
    cases fetchO f.url f.etag f.last_modified with
    | failed msg => exact ⟨[{ feed_id := f.id, url := f.url, message := msg }], by simp⟩
    | notModified => exact ⟨[], by simp⟩
    | ok t u et lm es =>
      cases hup : upsertPosts f.id es nowStr acc.1 with
      | none => exact ⟨[{ feed_id := f.id, url := f.url, message := fkFailMessage }], by simp [hup]⟩
      | some pr =>
        obtain ⟨s1, cnt⟩ := pr
        exact ⟨[], by simp [hup]⟩

theorem refreshFold_errors_mono (now : Int) (getTime : String → Int)
    (fetchO : String → Option String → Option String → FetchOutcome)
    (nowStr : String) (l : List Feed) :
    ∀ acc : Db × RefreshResults, ∃ t,
      (l.foldl (refreshStep now getTime fetchO nowStr) acc).2.errors
        = acc.2.errors ++ t := by
  induction l with
  | nil => intro acc; exact ⟨[], by simp⟩
  | cons f l ih =>
    intro acc
    obtain ⟨t1, ht1⟩ := ih (refreshStep now getTime fetchO nowStr acc f)
    obtain ⟨t0, ht0⟩ := refreshStep_errors_mono now getTime fetchO nowStr acc f
    refine ⟨t0 ++ t1, ?_⟩
    simp only [List.foldl_cons]
    rw [ht1, ht0, List.append_assoc]

/-- C7: when the fetch or parse of one eligible feed throws, the run
records exactly one error entry carrying that feed`s id, url and
message, leaves the store untouched by that feed, and continues with
the remaining feeds from the same state; the recorded entry survives
into the final report`s error list. -/
theorem refresh_error_isolation
    (now : Int) (getTime : String → Int) (nowStr : String)
    (fetchO : String → Option String → Option String → FetchOutcome)
    (pre suf : List Feed) (f : Feed)
    (s0 : Db) (r0 : RefreshResults) (msg : String)
    (helig : f.last_fetched = none ∨
      ∃ lf, f.last_fetched = some lf ∧ ¬(now - getTime lf < minInterval))
    (hfail : fetchO f.url f.etag f.last_modified = FetchOutcome.failed msg) :
    (pre ++ f :: suf).foldl (refreshStep now getTime fetchO nowStr) (s0, r0)
      = suf.foldl (refreshStep now getTime fetchO nowStr)
          ((pre.foldl (refreshStep now getTime fetchO nowStr) (s0, r0)).1,
           { (pre.foldl (refreshStep now getTime fetchO nowStr) (s0, r0)).2 with
               errors :=
                 (pre.foldl (refreshStep now getTime fetchO nowStr) (s0, r0)).2.errors
                   ++ [{ feed_id := f.id, url := f.url, message := msg }] }) ∧
    { feed_id := f.id, url := f.url, message := msg } ∈
      ((pre ++ f :: suf).foldl (refreshStep now getTime fetchO nowStr)
        (s0, r0)).2.errors := by
  have hstep : ∀ acc : Db × RefreshResults,
      refreshStep now getTime fetchO nowStr acc f
        = (acc.1, { acc.2 with errors := acc.2.errors
            ++ [{ feed_id := f.id, url := f.url, message := msg }] }) := by
    intro acc
    rcases helig with hnone | ⟨lf, hlf, hge⟩
    · simp [refreshStep, hnone, refreshFetch, hfail]
    · simp [refreshStep, hlf, hge, refreshFetch, hfail]
  have hmain : (pre ++ f :: suf).foldl (refreshStep now getTime fetchO nowStr) (s0, r0)
      = suf.foldl (refreshStep now getTime fetchO nowStr)
          ((pre.foldl (refreshStep now getTime fetchO nowStr) (s0, r0)).1,
           { (pre.foldl (refreshStep now getTime fetchO nowStr) (s0, r0)).2 with
               errors :=
                 (pre.foldl (refreshStep now getTime fetchO nowStr) (s0, r0)).2.errors
                   ++ [{ feed_id := f.id, url := f.url, message := msg }] }) := by
    rw [List.foldl_append]
    simp only [List.foldl_cons]
    rw [hstep]
  refine ⟨hmain, ?_⟩
  rw [hmain]
  obtain ⟨t, ht⟩ := refreshFold_errors_mono now getTime fetchO nowStr suf
    ((pre.foldl (refreshStep now getTime fetchO nowStr) (s0, r0)).1,
     { (pre.foldl (refreshStep now getTime fetchO nowStr) (s0, r0)).2 with
         errors :=
           (pre.foldl (refreshStep now getTime fetchO nowStr) (s0, r0)).2.errors
             ++ [{ feed_id := f.id, url := f.url, message := msg }] })
  rw [ht]
  simp

/-- Witness for C7: a run over the single never-fetched `errFeed` with a
throwing oracle records its error entry in the report. -/
theorem refresh_error_isolation_witness :
    { feed_id := (7 : Int), url := "bad", message := "boom" } ∈
      (([] ++ errFeed :: []).foldl
        (refreshStep 0 (fun _ => 0) failFetch "t")
        (upsertC1s0,
         { refreshed := 0, new_posts := 0, skipped := 0, errors := [] })).2.errors :=
  (refresh_error_isolation 0 (fun _ => 0) "t" failFetch [] [] errFeed
    upsertC1s0 { refreshed := 0, new_posts := 0, skipped := 0, errors := [] }
    "boom" (Or.inl rfl) rfl).2

/-- Counterexample for C10 as stated: `feed_id = 0` matches no stored
feed (the only feed of `upsertC1s0` has id 1), yet because 0 is falsy in
JS the handler takes the `listFeeds()` branch, refreshes feed 1 and
mutates the store, instead of returning the all-zero report. -/
theorem refresh_missing_feed_counterexample :
    (refresh_feeds (some 0) 0 "t1" (fun _ => 0) okFetch upsertC1s0).2.refreshed = 1 ∧
    (refresh_feeds (some 0) 0 "t1" (fun _ => 0) okFetch upsertC1s0).2.new_posts = 1 ∧
    (refresh_feeds (some 0) 0 "t1" (fun _ => 0) okFetch upsertC1s0).1 ≠ upsertC1s0 := by
  decide

/-- C10 amended: for a NONZERO feed_id matching no stored feed,
`refresh_feeds` returns the all-zero report with an empty error list
and leaves the store unchanged. -/
theorem refresh_missing_feed_amended (fid : Int) (hnz : fid ≠ 0) (s : Db)
    (habs : ∀ f ∈ s.feeds, f.id ≠ fid)
    (now : Int) (nowStr : String) (getTime : String → Int)
    (fetchO : String → Option String → Option String → FetchOutcome) :
    refresh_feeds (some fid) now nowStr getTime fetchO s
      = (s, { refreshed := 0, new_posts := 0, skipped := 0, errors := [] }) := by
  have hget : getFeed fid s = none := by
    apply List.find?_eq_none.mpr
    intro f hf
    simp [habs f hf]
  have hz : (fid == 0) = false := by simp [hnz]
  unfold refresh_feeds
  simp [selectFeeds, hz, hget]

/-- Witness for the amended C10: feed_id 2 is nonzero and absent from
`upsertC1s0`. -/
theorem refresh_missing_feed_amended_witness :
    refresh_feeds (some 2) 0 "t" (fun _ => 0) okFetch upsertC1s0
      = (upsertC1s0,
         { refreshed := 0, new_posts := 0, skipped := 0, errors := [] }) :=
  refresh_missing_feed_amended 2 (by decide) upsertC1s0 (by decide)
    0 "t" (fun _ => 0) okFetch

/-! ## C8: normalizer published_at -/

/-- The GUARDED date helper (the `toISOString` function of the
dialect-switch normalizer): for every date parser and ISO renderer it
yields none on an absent date and none on an unparsable date, and
whenever it yields a value that value is the ISO rendering of the
instant parsed from the entry`s own date field (never a sentinel, never
the current time, and the mapping over entries is total).  This is the
behavior the claim describes; `parseFeed` in src/feeds.ts does not use
this guard (see the claim theorem below). -/
theorem normalizer_published_at (dateParse : String → Option Int)
    (isoOf : Int → String) :
    (∀ date : Option String,
      (date = none → toISOString dateParse isoOf date = none) ∧
      (∀ d, date = some d → dateParse d = none →
        toISOString dateParse isoOf date = none) ∧
      (∀ r, toISOString dateParse isoOf date = some r →
        ∃ d t, date = some d ∧ dateParse d = some t ∧ r = isoOf t)) ∧
    (∀ item : RssItem,
      (rssEntry dateParse isoOf item).published_at = none ∨
      ∃ d t, (item.pubDate <|> item.dcDate) = some d ∧ dateParse d = some t ∧
        (rssEntry dateParse isoOf item).published_at = some (isoOf t)) := by
  constructor
  · intro date
    refine ⟨?_, ?_, ?_⟩
    · intro h; rw [h]; rfl
    · intro d hd hp
      rw [hd]
      by_cases hone : d = ""
      · simp [toISOString, hone]
      · simp [toISOString, hone, hp]
    · intro r hr
      cases date with
      | none => simp [toISOString] at hr
      | some d =>
        by_cases hone : d = ""
        · simp [toISOString, hone] at hr
        · cases hp : dateParse d with
          | none => simp [toISOString, hone, hp] at hr
          | some t =>
            refine ⟨d, t, rfl, hp, ?_⟩
            simp [toISOString, hone, hp] at hr
            exact hr.symm
  · intro item
    cases hdd : (item.pubDate <|> item.dcDate) with
    | none =>
      left
      simp [rssEntry, hdd, toISOString]
    | some d =>
      by_cases hone : d = ""
      · left
        simp [rssEntry, hdd, toISOString, hone]
      · cases hp : dateParse d with
        | none =>
          left
          simp [rssEntry, hdd, toISOString, hone, hp]
        | some t =>
          right
          exact ⟨d, t, rfl, hp, by simp [rssEntry, hdd, toISOString, hone, hp]⟩

/-- Witness for C8: with the concrete parser `wParse` and renderer
`wIso`, an absent date gives none, the unparsable date "bogus" gives
none, and the parsable date "x" gives the rendering of its instant. -/
theorem normalizer_published_at_witness :
    toISOString wParse wIso none = none ∧
    toISOString wParse wIso (some "bogus") = none ∧
    (∃ d t, (some "x" : Option String) = some d ∧ wParse d = some t ∧
      ("5" : String) = wIso t) :=
  ⟨((normalizer_published_at wParse wIso).1 none).1 rfl,
   ((normalizer_published_at wParse wIso).1 (some "bogus")).2.1 "bogus" rfl
     (by simp [wParse]),
   ((normalizer_published_at wParse wIso).1 (some "x")).2.2 "5" (by rfl)⟩

/-- C8: the cited `published_at` computation of `parseFeed` in
src/feeds.ts (lines 75-85) has no validity guard.  An absent date
yields absence as the claim states and a parsable date yields its
rendering, but for a truthy unparsable date (`dateParse` gives NaN)
`toISOString()` raises RangeError, so the entry map — and with it the
whole parse — fails instead of yielding absence.  The guarded helper of
the other normalizer file returns absence on the same input, so the
spec`s stated behavior is the intent and the cited code is the slip. -/
theorem parseFeed_unparsable_date_failure :
    feedsTsEntries wParse wIso [{ published := none }] =
      Except.ok [{ guid := "" }] ∧
    feedsTsEntries wParse wIso [{ published := some "x" }] =
      Except.ok [{ guid := "", published_at := some "5" }] ∧
    feedsTsEntries wParse wIso
        [{ published := none }, { published := some "bogus" }] =
      Except.error "RangeError: Invalid time value" ∧
    toISOString wParse wIso (some "bogus") = none :=
  ⟨rfl, rfl, rfl, rfl⟩

end RssMcp
